import Mathlib

/-!
Verification of `readingEaseLevel.py` (Computing-Reading-Levels).

Strings are embedded as `List Char`.  The Python string primitives used by the
source (`str.count`, `str.replace`, `str.split`, `str.rstrip`, `str.endswith`,
`in`/membership) are modelled by structurally recursive functions below, so
that every definition evaluates inside the kernel.  Python integers are
embedded as `Int` wherever a subtraction occurs, and the two floating-point
score formulas are embedded over `ℚ` (the program only ever prints them with
two decimals; the formulas themselves are exact decimal arithmetic).
-/

/-- Boolean prefix test on character lists (used by the models of Python's
`str.count` and `str.replace`, which scan left to right). -/
def isPre : List Char → List Char → Bool
  | [], _ => true
  | _ :: _, [] => false
  | a :: as, b :: bs => (a == b) && isPre as bs

/-- Worker for `pyCount`: `k` is the number of characters still to be skipped
because they belong to an already-counted occurrence.  At skip 0 it counts an
occurrence whenever the pattern is a prefix of the remaining text and then
skips the rest of that occurrence, exactly like CPython's `str.count`
(left-to-right, non-overlapping). -/
def pcGo (p : List Char) : Nat → List Char → Nat
  | _, [] => 0
  | k + 1, _ :: t => pcGo p k t
  | 0, c :: t => if isPre p (c :: t) then 1 + pcGo p (p.length - 1) t else pcGo p 0 t

/-- Model of Python's `s.count(p)` for a non-empty pattern `p`:
number of non-overlapping occurrences of `p` in `s`, scanning left to right. -/
def pyCount (p s : List Char) : Nat := pcGo p 0 s

/-- Worker for `pyReplace`; same skip discipline as `pcGo`, emitting the
replacement at each counted occurrence and the original character elsewhere. -/
def repGo (p r : List Char) : Nat → List Char → List Char
  | _, [] => []
  | k + 1, _ :: t => repGo p r k t
  | 0, c :: t => if isPre p (c :: t) then r ++ repGo p r (p.length - 1) t else c :: repGo p r 0 t

/-- Model of Python's `s.replace(p, r)` for a non-empty pattern `p`:
replaces every non-overlapping occurrence, scanning left to right. -/
def pyReplace (p r s : List Char) : List Char := repGo p r 0 s

/-- The six ASCII whitespace characters (space, tab, newline, carriage
return, vertical tab, form feed). -/
def spaceChars : List Char :=
  [' ', '\t', '\n', '\r', '\x0b', '\x0c']

/-- ASCII whitespace test, as recognised by Python's
`str.split()`/`str.rstrip()` on the ASCII texts this program processes. -/
def pyIsSpace (c : Char) : Bool := spaceChars.contains c

/-- Worker for `pySplit`; `acc` holds the (reversed) current word. -/
def pySplitGo : List Char → List Char → List (List Char)
  | [], acc => if acc = [] then [] else [acc.reverse]
  | c :: t, acc =>
    if pyIsSpace c then
      (if acc = [] then pySplitGo t [] else acc.reverse :: pySplitGo t [])
    else pySplitGo t (c :: acc)

/-- Model of Python's `s.split()` (no argument): split on runs of whitespace,
discarding empty tokens. -/
def pySplit (s : List Char) : List (List Char) := pySplitGo s []

/-- Model of Python's `s.rstrip()`: drop trailing whitespace. -/
def pyRstrip (s : List Char) : List Char := (s.reverse.dropWhile pyIsSpace).reverse

/-- Model of Python's `word.endswith(x)` for a single character `x`. -/
def endsWith (x : Char) : List Char → Bool
  | [] => false
  | [c] => c == x
  | _ :: c :: t => endsWith x (c :: t)

/-- `SENTENCE_MARKER = "XXX"` (source line 42). -/
def SENTENCE_MARKER : List Char := ['X', 'X', 'X']

/-- `TOP_N_WORDS = 10` (source line 44). -/
def TOP_N_WORDS : Nat := 10

/-- `MARK = " " + SENTENCE_MARKER + " "` (source line 138). -/
def MARK : List Char := [' '] ++ SENTENCE_MARKER ++ [' ']

/-- `vowelList` of `syllablesPerWord` (source line 191): a list of
one-character strings, each fed to `word.count`. -/
def vowelList : List (List Char) := [['a'], ['e'], ['i'], ['o'], ['u'], ['y']]

/-- `diphtohongList` of `syllablesPerWord` (source line 190; source spelling). -/
def diphtohongList : List (List Char) :=
  [['o', 'i'], ['o', 'y'], ['o', 'u'], ['o', 'w'], ['a', 'i'], ['a', 'u'],
   ['a', 'y'], ['a', 'w'], ['o', 'o'], ['i', 'e'], ['e', 'a'], ['e', 'e']]

/-- `specialCases` of `syllablesPerWord` (source line 204): words whose final
`e` is not treated as silent. -/
def specialCases : List (List Char) :=
  ["recipe".toList, "apostrophe".toList, "catastrophe".toList, "acne".toList,
   "epitome".toList, "karate".toList, "sesame".toList, "posse".toList,
   "vigilante".toList, "cliche".toList, "fiance".toList, "resume".toList,
   "middle".toList, "the".toList]

/-- Step (1) of `syllablesPerWord` (source lines 196-199): `wordVowels` after
summing `word.count(v)` over `vowelList`. -/
def vowelTotal (w : List Char) : Nat := (vowelList.map (fun v => pyCount v w)).sum

/-- Step (2) of `syllablesPerWord` (source lines 204-207): subtract one for a
final silent `e` unless the word is a special case or the count is zero. -/
def afterSilentE (w : List Char) : Int :=
  if endsWith 'e' w = true ∧ w ∉ specialCases ∧ vowelTotal w ≠ 0 then
    (vowelTotal w : Int) - 1
  else (vowelTotal w : Int)

/-- Total subtracted in step (3) of `syllablesPerWord` (source lines 212-213):
`word.count(d)` summed over `diphtohongList`. -/
def diphTotal (w : List Char) : Nat := (diphtohongList.map (fun p => pyCount p w)).sum

/-- The running `wordVowels` value reaching the final check of
`syllablesPerWord` (source line 218), before the `== 0` floor. -/
def preFloorCount (w : List Char) : Int := afterSilentE w - (diphTotal w : Int)

/-- `syllablesPerWord` (source lines 170-221): lowercase the word, count
vowels, subtract a silent final `e`, subtract each diphthong occurrence, then
return 1 if the running value is exactly 0, else the running value. -/
def syllablesPerWord (word : List Char) : Int :=
  let w := word.map Char.toLower
  if preFloorCount w = 0 then 1 else preFloorCount w

/-- Python's `string.punctuation` (the 32 ASCII punctuation characters).
A few characters are written via `Char.ofNat` (34 `"`, 39 `'`, 96 backquote,
123/125 the two braces) purely for lexical hygiene of this file. -/
def punctuationChars : List Char :=
  ['!', Char.ofNat 34, '#', '$', '%', '&', Char.ofNat 39, '(', ')', '*', '+',
   ',', '-', '.', '/', ':', ';', '<', '=', '>', '?', '@', '[', '\\', ']',
   '^', '_', Char.ofNat 96, Char.ofNat 123, '|', Char.ofNat 125, '~']

/-- `remove_punctuation` (source lines 58-73): the loop appending every
character that is not in `string.punctuation`. -/
def remove_punctuation (s : List Char) : List Char :=
  s.foldl (fun acc c => if c ∈ punctuationChars then acc else acc ++ [c]) []

/-- Per-line processing of `getData` (source lines 123-145): rstrip,
lowercase, un-dot the six abbreviations in order, then replace `.`, `?`, `!`
by the padded sentence marker. -/
def processLine (line : List Char) : List Char :=
  let l := pyRstrip line
  let l := l.map Char.toLower
  let l := pyReplace "mr.".toList "mr".toList l
  let l := pyReplace "mrs.".toList "mrs".toList l
  let l := pyReplace "ms.".toList "ms".toList l
  let l := pyReplace "dr.".toList "dr".toList l
  let l := pyReplace "st.".toList "st".toList l
  let l := pyReplace "prof.".toList "prof".toList l
  let l := pyReplace ['.'] MARK l
  let l := pyReplace ['?'] MARK l
  let l := pyReplace ['!'] MARK l
  l

/-- `getData` minus the interactive file I/O (source lines 122-150): process
each line and concatenate the results. -/
def getDataFromLines (lines : List (List Char)) : List Char :=
  lines.foldl (fun acc line => acc ++ processLine line) []

/-- `getNumberOfTotalWords` (source lines 237-252). -/
def getNumberOfTotalWords (s : List Char) : Nat :=
  (pySplit (pyReplace SENTENCE_MARKER [' '] s)).length

/-- `getNumberOfTotalSentences` (source lines 268-283). -/
def getNumberOfTotalSentences (s : List Char) : Nat := pyCount SENTENCE_MARKER s

/-- `getNumberOfTotalSyllables` (source lines 301-328). -/
def getNumberOfTotalSyllables (s : List Char) : Int :=
  ((pySplit (pyReplace SENTENCE_MARKER [' '] s)).map syllablesPerWord).sum

/-- `compute_FleschReadingEase` (source lines 348-372), over `ℚ`. -/
def compute_FleschReadingEase (totalSyllables totalWords totalSentences : Int) : ℚ :=
  if totalSyllables = 0 ∨ totalWords = 0 ∨ totalSentences = 0 then 0
  else
    206.835 - 1.015 * ((totalWords : ℚ) / (totalSentences : ℚ))
      - 84.6 * ((totalSyllables : ℚ) / (totalWords : ℚ))

/-- `compute_FleschKincaidGradeLevel` (source lines 392-416), over `ℚ`. -/
def compute_FleschKincaidGradeLevel (totalSyllables totalWords totalSentences : Int) : ℚ :=
  if totalSyllables = 0 ∨ totalWords = 0 ∨ totalSentences = 0 then 0
  else
    0.39 * ((totalWords : ℚ) / (totalSentences : ℚ))
      + 11.8 * ((totalSyllables : ℚ) / (totalWords : ℚ)) - 15.59

/-- One step of the word-count accumulation of `printTopNwords` (source lines
506-511): Python dicts preserve insertion order, so the table is an ordered
association list and new words are appended at the end. -/
def wcStep : List (List Char × Nat) → List Char → List (List Char × Nat)
  | [], w => [(w, 1)]
  | (k, c) :: rest, w => if k = w then (k, c + 1) :: rest else (k, c) :: wcStep rest w

/-- The `WC` table of `printTopNwords` after the counting loop. -/
def wcBuild (toks : List (List Char)) : List (List Char × Nat) := toks.foldl wcStep []

/-- Insertion step of a stable descending sort on counts: the new element
goes after every element with a strictly larger count and before the first
element whose count is not larger. -/
def insertDesc (x : List Char × Nat) : List (List Char × Nat) → List (List Char × Nat)
  | [] => [x]
  | y :: ys => if x.2 < y.2 then y :: insertDesc x ys else x :: y :: ys

/-- Model of `sorted(WC.items(), key=lambda x: x[1], reverse=True)` (source
line 514): CPython's sort is stable, so entries with equal counts keep their
insertion order; `insertDesc` folded from the right realises exactly that
stable descending order. -/
def sortByCountDesc (l : List (List Char × Nat)) : List (List Char × Nat) :=
  l.foldr insertDesc []

/-- The emission loop of `printTopNwords` (source lines 517-525): `cnt` is the
running `count` variable starting at 1; a row `(count, word)` is written when
the word is not the sentence marker and `cnt <= N`, and only then is `cnt`
incremented. -/
def emitLoop (N : Nat) : List (List Char × Nat) → Nat → List (Nat × List Char)
  | [], _ => []
  | (w, c) :: rest, cnt =>
    if w ≠ SENTENCE_MARKER ∧ cnt ≤ N then (c, w) :: emitLoop N rest (cnt + 1)
    else emitLoop N rest cnt

/-- `printTopNwords` (source lines 472-530), returning the list of
`(count, word)` rows appended to the report. -/
def printTopNwords (s : List Char) (N : Nat) : List (Nat × List Char) :=
  emitLoop N (sortByCountDesc (wcBuild (pySplit (remove_punctuation s)))) 1

/-- The decision made by `main` (source lines 537-568): `None` models the
degenerate branch that prints the error message and writes no report, `some`
carries the five values written to `report.csv`. -/
def mainReport (s : List Char) : Option (Int × Nat × Nat × ℚ × ℚ) :=
  let totalSyllables := getNumberOfTotalSyllables s
  let totalWords := getNumberOfTotalWords s
  let totalSentences := getNumberOfTotalSentences s
  if 0 < totalWords ∧ 0 < totalSentences then
    some (totalSyllables, totalWords, totalSentences,
      compute_FleschReadingEase totalSyllables totalWords totalSentences,
      compute_FleschKincaidGradeLevel totalSyllables totalWords totalSentences)
  else none

/-- Number of occurrences of the character `v` (proof-side view of
`word.count(v)` for a one-character pattern). -/
def countChar (v : Char) : List Char → Nat
  | [] => 0
  | c :: t => (if c = v then 1 else 0) + countChar v t

/-- The six vowel characters. -/
def vowelChars : List Char := ['a', 'e', 'i', 'o', 'u', 'y']

/-- Indicator that a character is a vowel. -/
def vind (c : Char) : Nat := if c ∈ vowelChars then 1 else 0

/-- Number of vowel characters in a word. -/
def nVowels : List Char → Nat
  | [] => 0
  | c :: t => vind c + nVowels t

/-- Indicator that the last character of a word is a vowel. -/
def lastV : List Char → Nat
  | [] => 0
  | [c] => vind c
  | _ :: c :: t => lastV (c :: t)

/-- Number of positions (overlapping allowed) at which `p` starts in `s`. -/
def starts (p : List Char) : List Char → Nat
  | [] => 0
  | c :: t => (if isPre p (c :: t) = true then 1 else 0) + starts p t

/-- Total number of positions at which some diphthong starts. -/
def dstarts (s : List Char) : Nat := (diphtohongList.map (fun p => starts p s)).sum

/-- First-seen list of distinct tokens (the key set of the Python `WC` dict,
in insertion order). -/
def distinctToks (l : List (List Char)) : List (List Char) :=
  l.foldl (fun acc w => if w ∈ acc then acc else acc ++ [w]) []

/-- Modelled from the spec: the Syllable Estimator reference algorithm of
spec §4.3, written from the spec's own words for the refinement claim C2:
(1) lowercase; (2) sum the per-character occurrence counts of a,e,i,o,u,y;
(3) silent-`e` suppression; (4) subtract the non-overlapping substring count
of each diphthong in the fixed ordered list; (5) floor: a result ≤ 0 becomes 1. -/
def specSyllablesPerWord (word : List Char) : Int :=
  let w := word.map Char.toLower
  let v1 : Int := ((vowelChars.map (fun v => countChar v w)).sum : Nat)
  let v2 : Int :=
    if endsWith 'e' w = true ∧ w ∉ specialCases ∧ v1 ≠ 0 then v1 - 1 else v1
  let v3 : Int := diphtohongList.foldl (fun acc p => acc - (pyCount p w : Int)) v2
  if v3 ≤ 0 then 1 else v3

/-! ### Helper lemmas -/

theorem foldl_remove_punctuation (s : List Char) :
    ∀ acc : List Char,
      s.foldl (fun acc c => if c ∈ punctuationChars then acc else acc ++ [c]) acc =
        acc ++ s.filter (fun c => decide (c ∉ punctuationChars)) := by
  induction s with
  | nil => intro acc; simp
  | cons c t ih =>
    intro acc
    by_cases hc : c ∈ punctuationChars
    · simp [List.foldl_cons, hc, ih]
    · simp [List.foldl_cons, hc, ih]

theorem remove_punctuation_eq_filter (s : List Char) :
    remove_punctuation s = s.filter (fun c => decide (c ∉ punctuationChars)) := by
  simpa using foldl_remove_punctuation s []

/-! ### Claim theorems (first batch) -/

/-- Claim C9: `remove_punctuation` returns the input with exactly the ASCII
punctuation characters removed: the result is the punctuation-free filter of
the input, hence a sublist of it (non-punctuation characters preserved in
order, nothing inserted), and no punctuation character occurs in it.  The
function is a total function on strings by construction. -/
theorem remove_punctuation_contract (s : List Char) :
    remove_punctuation s = s.filter (fun c => decide (c ∉ punctuationChars)) ∧
    (remove_punctuation s).Sublist s ∧
    (remove_punctuation s).all (fun c => decide (c ∉ punctuationChars)) = true := by
  refine ⟨remove_punctuation_eq_filter s, ?_, ?_⟩
  · rw [remove_punctuation_eq_filter s]; exact List.filter_sublist s
  · rw [remove_punctuation_eq_filter s]
    simp [List.all_eq_true]

/-- Claim C6: both score formulas return 0 whenever any of the three counts
is 0 (the division-by-zero guard). -/
theorem scores_zero_guard (S W T : Int) (h : S = 0 ∨ W = 0 ∨ T = 0) :
    compute_FleschReadingEase S W T = 0 ∧ compute_FleschKincaidGradeLevel S W T = 0 := by
  unfold compute_FleschReadingEase compute_FleschKincaidGradeLevel
  rw [if_pos h, if_pos h]
  exact ⟨rfl, rfl⟩

/-- Witness for C6 at `S = 0`, `W = 5`, `T = 7`. -/
theorem scores_zero_guard_witness :
    compute_FleschReadingEase 0 5 7 = 0 ∧ compute_FleschKincaidGradeLevel 0 5 7 = 0 :=
  scores_zero_guard 0 5 7 (Or.inl rfl)

/-- Claim C7: the Normalizer applies the abbreviation substitutions before
sentence-terminal punctuation is replaced, so the period of `"dr. smith"` is
consumed and produces no sentence marker: the lines `"Dr. Smith"` and
`"Dr. Smith came."` normalize to `"dr smith"` (marker-free) and
`"dr smith came XXX "` (one marker, from the terminal period only). -/
theorem abbrev_before_marking :
    processLine "Dr. Smith".toList = "dr smith".toList ∧
    pyCount SENTENCE_MARKER (processLine "Dr. Smith".toList) = 0 ∧
    processLine "Dr. Smith came.".toList = "dr smith came XXX ".toList ∧
    pyCount SENTENCE_MARKER (processLine "Dr. Smith came.".toList) = 1 := by
  refine ⟨by decide, by decide, by decide, by decide⟩

/-- Counterexample to C3 as stated: the Normalizer output on
`"The cat sat. The dog ran!"` is not the claimed string
`"the cat sat XXX the dog ran XXX "` (the marker replacement pads the marker
with its own spaces, so the space following the original period yields a
double space). -/
theorem normalize_example_ne_claimed :
    getDataFromLines ["The cat sat. The dog ran!".toList] ≠
      "the cat sat XXX the dog ran XXX ".toList := by
  decide

/-- Claim C3 (amended): on the single line `"The cat sat. The dog ran!"` the
Normalizer produces `"the cat sat XXX  the dog ran XXX "` (two spaces after
the first marker), and on that text the word count is 6, the sentence count
is 2, the syllable count is 6, and the two scores at (6,6,2) are 119.19 and
−2.62. -/
theorem end_to_end_example :
    getDataFromLines ["The cat sat. The dog ran!".toList] =
      "the cat sat XXX  the dog ran XXX ".toList ∧
    getNumberOfTotalWords (getDataFromLines ["The cat sat. The dog ran!".toList]) = 6 ∧
    getNumberOfTotalSentences (getDataFromLines ["The cat sat. The dog ran!".toList]) = 2 ∧
    getNumberOfTotalSyllables (getDataFromLines ["The cat sat. The dog ran!".toList]) = 6 ∧
    compute_FleschReadingEase 6 6 2 = 119.19 ∧
    compute_FleschKincaidGradeLevel 6 6 2 = -2.62 := by
  refine ⟨by decide, by decide, by decide, by decide, ?_, ?_⟩
  · norm_num [compute_FleschReadingEase]
  · norm_num [compute_FleschKincaidGradeLevel]

/-- Claim C8: `main` writes a report exactly when both the word count and the
sentence count are positive; when either is zero the run ends in the
diagnostic branch with no report, and otherwise the report carries both
computed scores.  (`mainReport` is `main`'s branch on the normalized text;
`none` is the diagnostic branch.) -/
theorem mainReport_iff_nondegenerate (s : List Char) :
    mainReport s =
      if getNumberOfTotalWords s = 0 ∨ getNumberOfTotalSentences s = 0 then none
      else
        some (getNumberOfTotalSyllables s, getNumberOfTotalWords s, getNumberOfTotalSentences s,
          compute_FleschReadingEase (getNumberOfTotalSyllables s) (getNumberOfTotalWords s)
            (getNumberOfTotalSentences s),
          compute_FleschKincaidGradeLevel (getNumberOfTotalSyllables s) (getNumberOfTotalWords s)
            (getNumberOfTotalSentences s)) := by
  by_cases hw : getNumberOfTotalWords s = 0
  · simp [mainReport, hw]
  · by_cases ht : getNumberOfTotalSentences s = 0
    · simp [mainReport, ht]
    · have hw' : 0 < getNumberOfTotalWords s := Nat.pos_of_ne_zero hw
      have ht' : 0 < getNumberOfTotalSentences s := Nat.pos_of_ne_zero ht
      simp [mainReport, hw, ht, hw', ht']

theorem sum_map_add {α : Type} (l : List α) (f g : α → Nat) :
    (l.map (fun x => f x + g x)).sum = (l.map f).sum + (l.map g).sum := by
  induction l with
  | nil => simp
  | cons a t ih => simp [ih]; omega

theorem sum_map_le {α : Type} (l : List α) (f g : α → Nat) (h : ∀ x ∈ l, f x ≤ g x) :
    (l.map f).sum ≤ (l.map g).sum := by
  induction l with
  | nil => simp
  | cons a t ih =>
    simp only [List.map_cons, List.sum_cons]
    have h1 := h a (by simp)
    have h2 := ih (fun x hx => h x (by simp [hx]))
    omega

theorem pyCount_single (v : Char) (s : List Char) : pyCount [v] s = countChar v s := by
  induction s with
  | nil => rfl
  | cons c t ih =>
    by_cases h : c = v
    · subst h
      simp [pyCount, pcGo, isPre, countChar] at *
      omega
    · have hb : (v == c) = false := by
        simp [beq_iff_eq]
        exact fun hh => h hh.symm
      simp [pyCount, pcGo, isPre, hb, countChar, h] at *
      omega

theorem indicator_sum (c : Char) :
    (vowelChars.map (fun v => if c = v then 1 else 0)).sum = vind c := by
  by_cases hc : c ∈ vowelChars
  · simp only [vowelChars, List.mem_cons, List.not_mem_nil, or_false] at hc
    rcases hc with rfl | rfl | rfl | rfl | rfl | rfl <;> decide
  · have hv : vind c = 0 := by simp [vind, hc]
    rw [hv]
    simp only [vowelChars, List.mem_cons, List.not_mem_nil, or_false, not_or] at hc
    obtain ⟨h1, h2, h3, h4, h5, h6⟩ := hc
    simp [vowelChars, h1, h2, h3, h4, h5, h6]

theorem sum_countChar_eq_nVowels (s : List Char) :
    (vowelChars.map (fun v => countChar v s)).sum = nVowels s := by
  induction s with
  | nil => simp [vowelChars, countChar, nVowels]
  | cons c t ih =>
    have he : (vowelChars.map (fun v => countChar v (c :: t))) =
        vowelChars.map (fun v => (if c = v then 1 else 0) + countChar v t) := by
      simp [countChar]
    rw [he, sum_map_add, indicator_sum, ih]
    rfl

theorem vowelTotal_eq (w : List Char) : vowelTotal w = nVowels w := by
  rw [← sum_countChar_eq_nVowels]
  simp [vowelTotal, vowelList, vowelChars, pyCount_single]

theorem starts_tail_le (p : List Char) (c : Char) (t : List Char) :
    starts p t ≤ starts p (c :: t) := by
  simp [starts]

theorem starts_drop_le (p : List Char) : ∀ (s : List Char) (k : Nat), starts p (s.drop k) ≤ starts p s := by
  intro s
  induction s with
  | nil => intro k; simp
  | cons c t ih =>
    intro k
    cases k with
    | zero => simp
    | succ k =>
      calc starts p ((c :: t).drop (k + 1)) = starts p (t.drop k) := rfl
        _ ≤ starts p t := ih k
        _ ≤ starts p (c :: t) := starts_tail_le p c t

theorem pcGo_le_starts (p : List Char) : ∀ (s : List Char) (k : Nat), pcGo p k s ≤ starts p (s.drop k) := by
  intro s
  induction s with
  | nil => intro k; simp [pcGo]
  | cons c t ih =>
    intro k
    cases k with
    | zero =>
      by_cases hp : isPre p (c :: t) = true
      · have h1 : pcGo p 0 (c :: t) = 1 + pcGo p (p.length - 1) t := by simp [pcGo, hp]
        have h2 := ih (p.length - 1)
        have h3 := starts_drop_le p t (p.length - 1)
        have h4 : starts p (c :: t) = 1 + starts p t := by simp [starts, hp]
        simp only [List.drop_zero]
        omega
      · have h1 : pcGo p 0 (c :: t) = pcGo p 0 t := by simp [pcGo, hp]
        have h2 := ih 0
        have h3 := starts_tail_le p c t
        simp only [List.drop_zero] at *
        omega
    | succ k =>
      have h1 : pcGo p (k + 1) (c :: t) = pcGo p k t := rfl
      have h2 := ih k
      simpa [h1] using h2

theorem pyCount_le_starts (p s : List Char) : pyCount p s ≤ starts p s := by
  have := pcGo_le_starts p s 0
  simpa [pyCount] using this

theorem diphTotal_le_dstarts (w : List Char) : diphTotal w ≤ dstarts w := by
  exact sum_map_le _ _ _ (fun p _ => pyCount_le_starts p w)

theorem isPre_two (x y c d : Char) (u : List Char) :
    (isPre [x, y] (c :: d :: u) = true) ↔ (c = x ∧ d = y) := by
  simp [isPre, Bool.and_eq_true, beq_iff_eq]
  constructor
  · rintro ⟨h1, h2⟩; exact ⟨h1.symm, h2.symm⟩
  · rintro ⟨h1, h2⟩; exact ⟨h1.symm, h2.symm⟩

theorem isPre_two_nil (x y c : Char) : isPre [x, y] [c] = false := by
  simp [isPre]

theorem headSum_le (c : Char) (t : List Char) :
    (diphtohongList.map (fun p => if isPre p (c :: t) = true then 1 else 0)).sum ≤ vind c := by
  cases t with
  | nil =>
    simp [diphtohongList, isPre_two_nil]
  | cons d u =>
    by_cases hm : ([c, d] : List Char) ∈ diphtohongList
    · simp only [diphtohongList, List.mem_cons, List.not_mem_nil, or_false,
        List.cons.injEq, and_true] at hm
      rcases hm with hp | hp | hp | hp | hp | hp | hp | hp | hp | hp | hp | hp <;>
        obtain ⟨rfl, rfl⟩ := hp <;>
        simp only [diphtohongList, List.map_cons, List.map_nil, List.sum_cons,
          List.sum_nil, isPre_two] <;>
        decide
    · have hz : ∀ x y : Char, ([x, y] : List Char) ∈ diphtohongList →
          isPre [x, y] (c :: d :: u) = false := by
        intro x y hxy
        cases hb : isPre [x, y] (c :: d :: u) with
        | false => rfl
        | true =>
          obtain ⟨rfl, rfl⟩ := (isPre_two x y c d u).mp hb
          exact absurd hxy hm
      have g1 := hz 'o' 'i' (by decide)
      have g2 := hz 'o' 'y' (by decide)
      have g3 := hz 'o' 'u' (by decide)
      have g4 := hz 'o' 'w' (by decide)
      have g5 := hz 'a' 'i' (by decide)
      have g6 := hz 'a' 'u' (by decide)
      have g7 := hz 'a' 'y' (by decide)
      have g8 := hz 'a' 'w' (by decide)
      have g9 := hz 'o' 'o' (by decide)
      have g10 := hz 'i' 'e' (by decide)
      have g11 := hz 'e' 'a' (by decide)
      have g12 := hz 'e' 'e' (by decide)
      simp [diphtohongList, g1, g2, g3, g4, g5, g6, g7, g8, g9, g10, g11, g12]

theorem dstarts_cons (c : Char) (t : List Char) :
    dstarts (c :: t) =
      (diphtohongList.map (fun p => if isPre p (c :: t) = true then 1 else 0)).sum + dstarts t := by
  simp only [dstarts]
  rw [← sum_map_add]
  rfl

theorem dstarts_add_lastV_le (s : List Char) : dstarts s + lastV s ≤ nVowels s := by
  induction s with
  | nil => simp [dstarts, lastV, nVowels, diphtohongList, starts]
  | cons c t ih =>
    cases t with
    | nil =>
      have h1 : dstarts [c] = 0 := by
        simp [dstarts, diphtohongList, starts, isPre_two_nil]
      have h2 : lastV [c] = vind c := rfl
      have h3 : nVowels [c] = vind c + 0 := rfl
      omega
    | cons d u =>
      have h1 := headSum_le c (d :: u)
      have h2 := dstarts_cons c (d :: u)
      have h3 : lastV (c :: d :: u) = lastV (d :: u) := rfl
      have h4 : nVowels (c :: d :: u) = vind c + nVowels (d :: u) := rfl
      omega

theorem endsWith_lastV (s : List Char) (h : endsWith 'e' s = true) : lastV s = 1 := by
  induction s with
  | nil => simp [endsWith] at h
  | cons c t ih =>
    cases t with
    | nil =>
      simp [endsWith, beq_iff_eq] at h
      subst h
      decide
    | cons d u =>
      have h2 : endsWith 'e' (d :: u) = true := h
      have := ih h2
      simpa [lastV] using this

theorem preFloor_nonneg (w : List Char) : 0 ≤ preFloorCount w := by
  have hd : diphTotal w ≤ dstarts w := diphTotal_le_dstarts w
  have hm : dstarts w + lastV w ≤ nVowels w := dstarts_add_lastV_le w
  have hv : vowelTotal w = nVowels w := vowelTotal_eq w
  unfold preFloorCount afterSilentE
  split_ifs with h
  · have hl : lastV w = 1 := endsWith_lastV w h.1
    omega
  · omega

theorem syllablesPerWord_ge_one (word : List Char) : 1 ≤ syllablesPerWord word := by
  have h0 := preFloor_nonneg (word.map Char.toLower)
  simp only [syllablesPerWord]
  split_ifs with h
  · omega
  · omega

theorem foldl_sub (l : List (List Char)) (f : List Char → Nat) :
    ∀ a : Int, l.foldl (fun acc p => acc - (f p : Int)) a = a - ((l.map f).sum : Nat) := by
  induction l with
  | nil => intro a; simp
  | cons p t ih =>
    intro a
    simp only [List.foldl_cons, ih, List.map_cons, List.sum_cons]
    push_cast
    ring

theorem spec_eq_floor (word : List Char) :
    specSyllablesPerWord word =
      (if preFloorCount (word.map Char.toLower) ≤ 0 then 1
       else preFloorCount (word.map Char.toLower)) := by
  simp only [specSyllablesPerWord]
  rw [foldl_sub]
  have hv : ((vowelChars.map (fun v => countChar v (word.map Char.toLower))).sum) =
      vowelTotal (word.map Char.toLower) := by
    rw [sum_countChar_eq_nVowels, vowelTotal_eq]
  rw [hv]
  simp only [preFloorCount, afterSilentE, diphTotal, ne_eq, Nat.cast_eq_zero]

/-- Claim C1: for every non-empty word, `syllablesPerWord` returns a positive
integer (result ≥ 1).  The underlying invariant proved here is that the
running count entering the final check is never negative, so the source's
`== 0` test floors every reachable value. -/
theorem syllablesPerWord_pos (word : List Char) (h : word ≠ []) :
    1 ≤ syllablesPerWord word :=
  syllablesPerWord_ge_one word

/-- Witness for C1 at the word `"strength"`. -/
theorem syllablesPerWord_pos_witness :
    "strength".toList ≠ ([] : List Char) ∧ 1 ≤ syllablesPerWord "strength".toList :=
  ⟨by decide, syllablesPerWord_pos "strength".toList (by decide)⟩

/-- Claim C2: on every non-empty word, `syllablesPerWord` coincides with the
reference algorithm of spec §4.3 (`specSyllablesPerWord`, written from the
spec's own words, including its `≤ 0 → 1` floor): the two floors agree
because the pre-floor count is provably never negative. -/
theorem syllablesPerWord_matches_spec (word : List Char) (h : word ≠ []) :
    syllablesPerWord word = specSyllablesPerWord word := by
  rw [spec_eq_floor]
  have h0 := preFloor_nonneg (word.map Char.toLower)
  simp only [syllablesPerWord]
  split_ifs with h1 h2 h2 <;> omega

/-- Witness for C2 at the word `"Beautiful"`. -/
theorem syllablesPerWord_matches_spec_witness :
    "Beautiful".toList ≠ ([] : List Char) ∧
      syllablesPerWord "Beautiful".toList = specSyllablesPerWord "Beautiful".toList :=
  ⟨by decide, syllablesPerWord_matches_spec "Beautiful".toList (by decide)⟩

theorem length_le_sum_syllables (l : List (List Char)) :
    (l.length : Int) ≤ (l.map syllablesPerWord).sum := by
  induction l with
  | nil => simp
  | cons w t ih =>
    have h1 := syllablesPerWord_ge_one w
    simp only [List.length_cons, List.map_cons, List.sum_cons]
    push_cast
    omega

/-- Claim C10: for every string, the total syllable count is at least the
total word count — both functions tokenize identically (replace the sentence
marker by a space, split on whitespace) and each token contributes at least
one syllable. -/
theorem totalSyllables_ge_totalWords (s : List Char) :
    (getNumberOfTotalWords s : Int) ≤ getNumberOfTotalSyllables s := by
  unfold getNumberOfTotalWords getNumberOfTotalSyllables
  exact length_le_sum_syllables _

theorem insertDesc_perm (x : List Char × Nat) (l : List (List Char × Nat)) :
    (insertDesc x l).Perm (x :: l) := by
  induction l with
  | nil => simp [insertDesc]
  | cons y ys ih =>
    simp only [insertDesc]
    split_ifs with h
    · exact (ih.cons y).trans (List.Perm.swap x y ys)
    · exact List.Perm.refl _

theorem sortByCountDesc_perm (l : List (List Char × Nat)) : (sortByCountDesc l).Perm l := by
  induction l with
  | nil => simp [sortByCountDesc]
  | cons a t ih =>
    have h1 : sortByCountDesc (a :: t) = insertDesc a (sortByCountDesc t) := rfl
    rw [h1]
    exact (insertDesc_perm a _).trans (ih.cons a)

theorem insertDesc_pairwise (x : List Char × Nat) (l : List (List Char × Nat))
    (h : l.Pairwise (fun a b => b.2 ≤ a.2)) :
    (insertDesc x l).Pairwise (fun a b => b.2 ≤ a.2) := by
  induction l with
  | nil => simp [insertDesc]
  | cons y ys ih =>
    rw [List.pairwise_cons] at h
    obtain ⟨hy, hys⟩ := h
    simp only [insertDesc]
    split_ifs with hlt
    · rw [List.pairwise_cons]
      refine ⟨?_, ih hys⟩
      intro z hz
      have hz2 : z ∈ x :: ys := (insertDesc_perm x ys).mem_iff.mp hz
      rcases List.mem_cons.mp hz2 with rfl | hz3
      · omega
      · exact hy z hz3
    · rw [List.pairwise_cons]
      refine ⟨?_, ?_⟩
      · intro z hz
        rcases List.mem_cons.mp hz with rfl | hz3
        · omega
        · have := hy z hz3
          omega
      · rw [List.pairwise_cons]
        exact ⟨hy, hys⟩

theorem sortByCountDesc_pairwise (l : List (List Char × Nat)) :
    (sortByCountDesc l).Pairwise (fun a b => b.2 ≤ a.2) := by
  induction l with
  | nil => simp [sortByCountDesc]
  | cons a t ih => exact insertDesc_pairwise a _ ih

theorem insertDesc_filter (x : List Char × Nat) (l : List (List Char × Nat)) (c : Nat) :
    (insertDesc x l).filter (fun e => decide (e.2 = c)) =
      if x.2 = c then x :: l.filter (fun e => decide (e.2 = c))
      else l.filter (fun e => decide (e.2 = c)) := by
  induction l with
  | nil =>
    simp only [insertDesc, List.filter]
    split_ifs with h <;> simp [h]
  | cons y ys ih =>
    simp only [insertDesc]
    split_ifs with hlt hxc hxc2
    · have hyc : ¬ (y.2 = c) := by omega
      simp [List.filter_cons, hyc, ih, hxc]
    · simp [List.filter_cons, ih, hxc]
    · simp [List.filter_cons, hxc2]
    · simp [List.filter_cons, hxc2]

theorem sortByCountDesc_filter (l : List (List Char × Nat)) (c : Nat) :
    (sortByCountDesc l).filter (fun e => decide (e.2 = c)) =
      l.filter (fun e => decide (e.2 = c)) := by
  induction l with
  | nil => rfl
  | cons a t ih =>
    have h1 : sortByCountDesc (a :: t) = insertDesc a (sortByCountDesc t) := rfl
    rw [h1, insertDesc_filter]
    split_ifs with h
    · simp [List.filter_cons, h, ih]
    · simp [List.filter_cons, h, ih]

theorem emitLoop_not_marker (N : Nat) (l : List (List Char × Nat)) :
    ∀ cnt : Nat, SENTENCE_MARKER ∉ (emitLoop N l cnt).map Prod.snd := by
  induction l with
  | nil => intro cnt; simp [emitLoop]
  | cons e t ih =>
    intro cnt
    obtain ⟨w, c⟩ := e
    simp only [emitLoop]
    split_ifs with h
    · simp only [List.map_cons, List.mem_cons, not_or]
      exact ⟨fun hh => h.1 hh.symm, ih (cnt + 1)⟩
    · exact ih cnt

theorem emitLoop_length (N : Nat) (l : List (List Char × Nat)) :
    ∀ cnt : Nat, cnt ≤ N + 1 →
      (emitLoop N l cnt).length =
        min (N + 1 - cnt) ((l.filter (fun e => decide (e.1 ≠ SENTENCE_MARKER))).length) := by
  induction l with
  | nil => intro cnt h; simp [emitLoop]
  | cons e t ih =>
    intro cnt h
    obtain ⟨w, c⟩ := e
    simp only [emitLoop]
    by_cases hw : w = SENTENCE_MARKER
    · rw [if_neg (fun hcon => hcon.1 hw)]
      have h2 := ih cnt h
      have hfilt : List.filter (fun e => decide (e.1 ≠ SENTENCE_MARKER)) ((w, c) :: t) =
          List.filter (fun e => decide (e.1 ≠ SENTENCE_MARKER)) t := by
        simp [List.filter_cons, hw]
      rw [h2, hfilt]
    · have hfilt : List.filter (fun e => decide (e.1 ≠ SENTENCE_MARKER)) ((w, c) :: t) =
          (w, c) :: List.filter (fun e => decide (e.1 ≠ SENTENCE_MARKER)) t := by
        simp [List.filter_cons, hw]
      by_cases hcnt : cnt ≤ N
      · rw [if_pos ⟨hw, hcnt⟩]
        have h2 := ih (cnt + 1) (by omega)
        rw [List.length_cons, h2, hfilt, List.length_cons]
        omega
      · rw [if_neg (fun hcon => hcnt hcon.2)]
        have h2 := ih cnt h
        rw [h2, hfilt, List.length_cons]
        omega

theorem filter_fst_length (l : List (List Char × Nat)) :
    (l.filter (fun e => decide (e.1 ≠ SENTENCE_MARKER))).length =
      ((l.map Prod.fst).filter (fun w => decide (w ≠ SENTENCE_MARKER))).length := by
  induction l with
  | nil => rfl
  | cons e t ih =>
    obtain ⟨w, c⟩ := e
    by_cases hw : w = SENTENCE_MARKER
    · have h1 : List.filter (fun e => decide (e.1 ≠ SENTENCE_MARKER)) ((w, c) :: t) =
          List.filter (fun e => decide (e.1 ≠ SENTENCE_MARKER)) t := by
        simp [List.filter_cons, hw]
      have h2 : List.filter (fun x => decide (x ≠ SENTENCE_MARKER)) (((w, c) :: t).map Prod.fst) =
          List.filter (fun x => decide (x ≠ SENTENCE_MARKER)) (t.map Prod.fst) := by
        simp [List.filter_cons, hw]
      rw [h1, h2, ih]
    · have h1 : List.filter (fun e => decide (e.1 ≠ SENTENCE_MARKER)) ((w, c) :: t) =
          (w, c) :: List.filter (fun e => decide (e.1 ≠ SENTENCE_MARKER)) t := by
        simp [List.filter_cons, hw]
      have h2 : List.filter (fun x => decide (x ≠ SENTENCE_MARKER)) (((w, c) :: t).map Prod.fst) =
          w :: List.filter (fun x => decide (x ≠ SENTENCE_MARKER)) (t.map Prod.fst) := by
        simp [List.filter_cons, hw]
      rw [h1, h2, List.length_cons, List.length_cons, ih]

theorem wcStep_keys (t : List (List Char × Nat)) (w : List Char) :
    (wcStep t w).map Prod.fst =
      if w ∈ t.map Prod.fst then t.map Prod.fst else t.map Prod.fst ++ [w] := by
  induction t with
  | nil => simp [wcStep]
  | cons e r ih =>
    obtain ⟨k, c⟩ := e
    by_cases hkw : k = w
    · subst hkw
      have hmem : k ∈ ((k, c) :: r).map Prod.fst := by simp
      rw [if_pos hmem]
      simp [wcStep]
    · by_cases hmem : w ∈ r.map Prod.fst
      · have hm2 : w ∈ ((k, c) :: r).map Prod.fst := by simp [hmem]
        rw [if_pos hm2]
        simp [wcStep, hkw, ih, hmem]
      · have hm2 : w ∉ ((k, c) :: r).map Prod.fst := by
          simp only [List.map_cons, List.mem_cons, not_or]
          exact ⟨fun hh => hkw hh.symm, hmem⟩
        rw [if_neg hm2]
        simp [wcStep, hkw, ih, hmem]

theorem foldl_wcStep_keys (toks : List (List Char)) :
    ∀ acc : List (List Char × Nat),
      ((toks.foldl wcStep acc).map Prod.fst) =
        toks.foldl (fun a w => if w ∈ a then a else a ++ [w]) (acc.map Prod.fst) := by
  induction toks with
  | nil => intro acc; rfl
  | cons t ts ih =>
    intro acc
    simp only [List.foldl_cons]
    rw [ih (wcStep acc t), wcStep_keys]

theorem wcBuild_keys (toks : List (List Char)) :
    (wcBuild toks).map Prod.fst = distinctToks toks := by
  have := foldl_wcStep_keys toks []
  simpa [wcBuild, distinctToks] using this

/-- Claim C4: for every input text and every `N`, the sentence marker token
never appears among the rows `printTopNwords` emits, and skipping it does not
consume an output slot: whenever at least `N + 1` distinct non-marker tokens
occur in the text, exactly `N` rows are emitted (even when the marker ranks
among the top `N` by count). -/
theorem printTopNwords_excludes_marker (s : List Char) (N : Nat) :
    SENTENCE_MARKER ∉ (printTopNwords s N).map Prod.snd ∧
    (N + 1 ≤ ((distinctToks (pySplit (remove_punctuation s))).filter
        (fun w => decide (w ≠ SENTENCE_MARKER))).length →
      (printTopNwords s N).length = N) := by
  constructor
  · exact emitLoop_not_marker N _ 1
  · intro h
    have h1 := emitLoop_length N (sortByCountDesc (wcBuild (pySplit (remove_punctuation s)))) 1
      (by omega)
    have hperm : ((sortByCountDesc (wcBuild (pySplit (remove_punctuation s)))).filter
        (fun e => decide (e.1 ≠ SENTENCE_MARKER))).length =
        ((wcBuild (pySplit (remove_punctuation s))).filter
          (fun e => decide (e.1 ≠ SENTENCE_MARKER))).length :=
      ((sortByCountDesc_perm _).filter _).length_eq
    have hkeys := filter_fst_length (wcBuild (pySplit (remove_punctuation s)))
    rw [wcBuild_keys] at hkeys
    simp only [printTopNwords, h1, hperm, hkeys]
    omega

/-- Witness for C4: on `"XXX a XXX b XXX c XXX d"` with `N = 3` the marker is
the most frequent token yet is absent from the output, and the three slots
are still filled. -/
theorem printTopNwords_excludes_marker_witness :
    SENTENCE_MARKER ∉ (printTopNwords "XXX a XXX b XXX c XXX d".toList 3).map Prod.snd ∧
      (printTopNwords "XXX a XXX b XXX c XXX d".toList 3).length = 3 :=
  ⟨(printTopNwords_excludes_marker "XXX a XXX b XXX c XXX d".toList 3).1,
    (printTopNwords_excludes_marker "XXX a XXX b XXX c XXX d".toList 3).2 (by decide)⟩

/-- Claim C5: the ranking built by `printTopNwords` is ordered by descending
count, entries with equal counts keep their first-seen (insertion) order
(stated as: filtering the ranking at any fixed count equals filtering the
insertion-ordered table at that count), and on `"the the cat cat dog"` the
emitted rows list `the` before `cat` before `dog`. -/
theorem ranking_desc_stable :
    (∀ s : List Char,
      (sortByCountDesc (wcBuild (pySplit (remove_punctuation s)))).Pairwise
        (fun a b => b.2 ≤ a.2)) ∧
    (∀ (s : List Char) (c : Nat),
      (sortByCountDesc (wcBuild (pySplit (remove_punctuation s)))).filter
          (fun e => decide (e.2 = c)) =
        (wcBuild (pySplit (remove_punctuation s))).filter (fun e => decide (e.2 = c))) ∧
    printTopNwords "the the cat cat dog".toList TOP_N_WORDS =
      [(2, "the".toList), (2, "cat".toList), (1, "dog".toList)] :=
  ⟨fun _ => sortByCountDesc_pairwise _, fun _ c => sortByCountDesc_filter _ c, by decide⟩
